import Mathlib

/-!
Verification of the versionist core (balena-io/versionist) against its
natural-language specification.

The JavaScript sources are shallowly embedded:
* `lib/semver.js` — increment-level resolution and extended semver comparison;
* the presets module — version cleaning, file patching (`replace`,
  `updateVersion.*`) and the changelog entry merger
  (`addEntryToChangelog.prepend`).

JavaScript `null`/`undefined` values are modelled with `Option`, thrown
exceptions with `Except String` carrying the thrown message, and file contents
with explicit `String` state passing.  External npm libraries (`semver`,
`update-json`, `replace-in-file`) are either taken as parameters or modelled
from the specification, as flagged in the corresponding doc comments.
-/

namespace Versionist

/-! ## Increment levels (`lib/semver.js`) -/

/-- The ordered list of valid increment levels; the index in this list is the
precedence used by `getHigherIncrementLevel`. -/
def VALID_INCREMENT_LEVELS : List String := ["patch", "minor", "major"]

/-- `exports.isValidIncrementLevel`: membership in `VALID_INCREMENT_LEVELS`. -/
def isValidIncrementLevel (level : String) : Bool :=
  VALID_INCREMENT_LEVELS.contains level

/-- JavaScript `_.indexOf`: position of the first occurrence, `-1` if absent. -/
def jsIndexOf : List String → String → Int
  | [], _ => -1
  | y :: ys, x =>
    if y = x then 0
    else
      let r := jsIndexOf ys x
      if r = -1 then -1 else r + 1

/-- JavaScript `_.nth`: element at the index, counting from the end for a
negative index, `undefined` (`none`) when out of range. -/
def jsNth (l : List String) (i : Int) : Option String :=
  if 0 ≤ i then l.get? i.toNat
  else if 0 ≤ (l.length : Int) + i then l.get? ((l.length : Int) + i).toNat
  else none

/-- The validation performed on each argument of `getHigherIncrementLevel`:
it throws when the level is defined, non-null and not a valid level.
`none` models both `null` and `undefined`. -/
def badLevel (l : Option String) : Bool :=
  match l with
  | none => false
  | some s => ¬ isValidIncrementLevel s

/-- The index `_.indexOf(VALID_INCREMENT_LEVELS, level)` computed by the
source, with `null`/`undefined` mapped to `-1`. -/
def levelIndex (l : Option String) : Int :=
  match l with
  | none => -1
  | some s => jsIndexOf VALID_INCREMENT_LEVELS s

/-- `exports.getHigherIncrementLevel` from `lib/semver.js`: validate both
arguments, return `null` when both are falsy, otherwise the level whose index
is the larger of the two. -/
def getHigherIncrementLevel (firstLevel secondLevel : Option String) :
    Except String (Option String) :=
  if badLevel firstLevel then
    .error ("Invalid increment level: " ++ (firstLevel.getD "undefined"))
  else if badLevel secondLevel then
    .error ("Invalid increment level: " ++ (secondLevel.getD "undefined"))
  else if firstLevel = none ∧ secondLevel = none then
    .ok none
  else
    .ok (jsNth VALID_INCREMENT_LEVELS
      (max (levelIndex firstLevel) (levelIndex secondLevel)))

/-- The `_.reduce` loop of `calculateNextIncrementLevel`: fold
`getHigherIncrementLevel(commitLevel, currentLevel)` over the commits,
aborting on a thrown error. -/
def calcFold {α : Type} (getLevel : α → Option String) :
    List α → Option String → Except String (Option String)
  | [], acc => .ok acc
  | c :: cs, acc =>
    match getHigherIncrementLevel (getLevel c) acc with
    | .error e => .error e
    | .ok l => calcFold getLevel cs l

/-- `exports.calculateNextIncrementLevel` from `lib/semver.js`: throw on an
empty commit list, otherwise reduce with `getHigherIncrementLevel` starting
from `null`. -/
def calculateNextIncrementLevel {α : Type} (commits : List α)
    (getLevel : α → Option String) : Except String (Option String) :=
  if commits.isEmpty then
    .error "No commits to calculate the next increment level from"
  else
    calcFold getLevel commits none

/-- An argument that passes `getHigherIncrementLevel`'s validation:
`none` (null/undefined) or a valid level. -/
def okLevel (l : Option String) : Prop :=
  match l with
  | none => True
  | some s => s ∈ VALID_INCREMENT_LEVELS

instance (l : Option String) : Decidable (okLevel l) := by
  cases l with
  | none => exact isTrue trivial
  | some s => exact inferInstanceAs (Decidable (s ∈ VALID_INCREMENT_LEVELS))

/-- The claim's pairwise rule, stated from the spec's words: the argument
with the greater position in the level order wins (with `none` at position
`-1`, so both-`none` gives `none` and a concrete level beats `none`). -/
def specHigher (a b : Option String) : Option String :=
  if levelIndex a < levelIndex b then b else a

/-- The claim's `resolve`: the left fold of the pairwise rule over the
sequence, starting from `none`. -/
def specResolve (levels : List (Option String)) : Option String :=
  levels.foldl (fun acc l => specHigher l acc) none

theorem okLevel_cases {l : Option String} (h : okLevel l) :
    l = none ∨ l = some "patch" ∨ l = some "minor" ∨ l = some "major" := by
  cases l with
  | none => exact Or.inl rfl
  | some s =>
    simp only [okLevel, VALID_INCREMENT_LEVELS, List.mem_cons,
      List.mem_singleton, List.not_mem_nil, or_false] at h
    rcases h with rfl | rfl | rfl
    · exact Or.inr (Or.inl rfl)
    · exact Or.inr (Or.inr (Or.inl rfl))
    · exact Or.inr (Or.inr (Or.inr rfl))

theorem higher_eq_specHigher {a b : Option String} (ha : okLevel a)
    (hb : okLevel b) : getHigherIncrementLevel a b = .ok (specHigher a b) := by
  rcases okLevel_cases ha with rfl | rfl | rfl | rfl <;>
    rcases okLevel_cases hb with rfl | rfl | rfl | rfl <;> rfl

theorem specHigher_okLevel {a b : Option String} (ha : okLevel a)
    (hb : okLevel b) : okLevel (specHigher a b) := by
  unfold specHigher
  split <;> assumption

theorem levelIndex_specHigher (a b : Option String) :
    levelIndex (specHigher a b) = max (levelIndex a) (levelIndex b) := by
  unfold specHigher
  split <;> omega

theorem specHigher_mem (a b : Option String) :
    specHigher a b = a ∨ specHigher a b = b := by
  unfold specHigher
  split
  · exact Or.inr rfl
  · exact Or.inl rfl

theorem specHigher_none_iff {a b : Option String} (ha : okLevel a)
    (hb : okLevel b) : specHigher a b = none ↔ a = none ∧ b = none := by
  rcases okLevel_cases ha with rfl | rfl | rfl | rfl <;>
    rcases okLevel_cases hb with rfl | rfl | rfl | rfl <;> decide

theorem calcFold_eq_foldl (levels : List (Option String)) :
    ∀ acc : Option String, okLevel acc → (∀ l ∈ levels, okLevel l) →
      calcFold id levels acc =
        .ok (levels.foldl (fun a l => specHigher l a) acc) := by
  induction levels with
  | nil => intro acc _ _; rfl
  | cons c cs ih =>
    intro acc hacc hall
    have hc : okLevel c := hall c (List.mem_cons_self c cs)
    have hcs : ∀ l ∈ cs, okLevel l := fun l hl =>
      hall l (List.mem_cons_of_mem c hl)
    simp only [calcFold, id, higher_eq_specHigher hc hacc]
    rw [ih (specHigher c acc) (specHigher_okLevel hc hacc) hcs]
    rfl

theorem foldl_specHigher_rank (levels : List (Option String)) :
    ∀ acc : Option String,
      levelIndex acc ≤
        levelIndex (levels.foldl (fun a l => specHigher l a) acc) ∧
      ∀ l ∈ levels,
        levelIndex l ≤
          levelIndex (levels.foldl (fun a l => specHigher l a) acc) := by
  induction levels with
  | nil => intro acc; exact ⟨le_refl _, by intro l hl; cases hl⟩
  | cons c cs ih =>
    intro acc
    have h := ih (specHigher c acc)
    have hrank := levelIndex_specHigher c acc
    constructor
    · calc levelIndex acc ≤ levelIndex (specHigher c acc) := by omega
        _ ≤ _ := h.1
    · intro l hl
      rcases List.mem_cons.mp hl with rfl | hl'
      · calc levelIndex l ≤ levelIndex (specHigher l acc) := by omega
          _ ≤ _ := h.1
      · exact h.2 l hl'

theorem foldl_specHigher_mem (levels : List (Option String)) :
    ∀ acc : Option String,
      levels.foldl (fun a l => specHigher l a) acc = acc ∨
        levels.foldl (fun a l => specHigher l a) acc ∈ levels := by
  induction levels with
  | nil => intro acc; exact Or.inl rfl
  | cons c cs ih =>
    intro acc
    rcases ih (specHigher c acc) with h | h
    · rcases specHigher_mem c acc with hm | hm
      · right
        rw [List.foldl_cons, h, hm]
        exact List.mem_cons_self c cs
      · left
        rw [List.foldl_cons, h, hm]
    · right
      exact List.mem_cons_of_mem c h

theorem foldl_specHigher_none (levels : List (Option String)) :
    ∀ acc : Option String, okLevel acc → (∀ l ∈ levels, okLevel l) →
      (levels.foldl (fun a l => specHigher l a) acc = none ↔
        acc = none ∧ ∀ l ∈ levels, l = none) := by
  induction levels with
  | nil =>
    intro acc _ _
    simp only [List.foldl_nil]
    constructor
    · intro h; exact ⟨h, by intro l hl; cases hl⟩
    · intro h; exact h.1
  | cons c cs ih =>
    intro acc hacc hall
    have hc : okLevel c := hall c (List.mem_cons_self c cs)
    have hcs : ∀ l ∈ cs, okLevel l := fun l hl =>
      hall l (List.mem_cons_of_mem c hl)
    rw [List.foldl_cons, ih (specHigher c acc) (specHigher_okLevel hc hacc) hcs]
    rw [specHigher_none_iff hc hacc]
    constructor
    · rintro ⟨⟨h1, h2⟩, h3⟩
      refine ⟨h2, ?_⟩
      intro l hl
      rcases List.mem_cons.mp hl with rfl | hl'
      · exact h1
      · exact h3 l hl'
    · rintro ⟨h1, h2⟩
      exact ⟨⟨h2 c (List.mem_cons_self c cs), h1⟩,
        fun l hl => h2 l (List.mem_cons_of_mem c hl)⟩

/-- Claim C1: over a non-empty sequence of valid-or-`none` per-commit
classifications, `calculateNextIncrementLevel` returns the maximum level
present under the order `none < patch < minor < major`, and returns `none`
exactly when every element is `none`; the pairwise rule
`getHigherIncrementLevel` returns `none` when both arguments are `none` and
otherwise the argument with the greater position; the empty sequence throws. -/
theorem C1_resolve_is_max :
    (∀ a b : Option String, okLevel a → okLevel b →
      getHigherIncrementLevel a b = .ok (specHigher a b)) ∧
    (∀ getLevel : Option String → Option String,
      calculateNextIncrementLevel [] getLevel =
        .error "No commits to calculate the next increment level from") ∧
    (∀ levels : List (Option String), levels ≠ [] →
      (∀ l ∈ levels, okLevel l) →
      calculateNextIncrementLevel levels id = .ok (specResolve levels) ∧
      (∀ l ∈ levels, levelIndex l ≤ levelIndex (specResolve levels)) ∧
      (specResolve levels = none ↔ ∀ l ∈ levels, l = none) ∧
      (specResolve levels ≠ none → specResolve levels ∈ levels)) := by
  refine ⟨fun a b ha hb => higher_eq_specHigher ha hb, fun _ => rfl, ?_⟩
  intro levels hne hall
  have hcalc : calculateNextIncrementLevel levels id = .ok (specResolve levels) := by
    unfold calculateNextIncrementLevel
    rw [if_neg (by simpa [List.isEmpty_iff] using hne)]
    exact calcFold_eq_foldl levels none trivial hall
  refine ⟨hcalc, fun l hl => (foldl_specHigher_rank levels none).2 l hl, ?_, ?_⟩
  · have h := foldl_specHigher_none levels none trivial hall
    unfold specResolve
    rw [h]
    simp
  · intro hne'
    rcases foldl_specHigher_mem levels none with h | h
    · exact absurd h hne'
    · exact h

/-- Concrete instance for C1: resolving `[patch, major, minor]` succeeds and
yields `major`, the maximum level present. -/
theorem C1_resolve_is_max_witness :
    calculateNextIncrementLevel
        [some "patch", some "major", some "minor"] id =
      .ok (some "major") := by
  have h := (C1_resolve_is_max.2.2 [some "patch", some "major", some "minor"]
    (by decide) (by decide)).1
  rw [h]
  rfl

/-! ## Version cleaning (`getCleanFunction` in the presets module)

`options.clean` may be `true` (the external `semver.clean`), a regular
expression (`version.replace(options.clean, '')`), or `false` (identity).
Regular-expression patterns are modelled for patterns made of literal
characters (the shape of the spec example regex for stripping "-beta"); a JavaScript
`String.replace` with a non-global regex replaces only the first match. -/


/-- The scan of JavaScript `str.replace(pattern, '')` for a non-global
literal pattern `p :: ps`: delete the first occurrence, leave the rest. -/
def replaceFirstAux (p : Char) (ps : List Char) : List Char → List Char
  | [] => []
  | c :: cs =>
    if (p :: ps).isPrefixOf (c :: cs) then cs.drop ps.length
    else c :: replaceFirstAux p ps cs

/-- JavaScript `str.replace(pattern, '')` for a non-global literal pattern:
only the first occurrence is removed (the empty pattern leaves the string
unchanged, as the replacement is empty). -/
def jsReplaceFirst (pat s : List Char) : List Char :=
  match pat with
  | [] => s
  | p :: ps => replaceFirstAux p ps s

/-- Modelled from the spec: remove every non-overlapping match of the
literal pattern `p :: ps`, left to right, leaving the remaining characters
in place.  The fuel argument (instantiated with the string length) makes the
recursion structural. -/
def stripAllAux (p : Char) (ps : List Char) : Nat → List Char → List Char
  | _, [] => []
  | 0, s => s
  | fuel + 1, c :: cs =>
    if (p :: ps).isPrefixOf (c :: cs) then
      stripAllAux p ps fuel (cs.drop ps.length)
    else c :: stripAllAux p ps fuel cs

/-- Modelled from the spec: remove every non-overlapping match of a literal
pattern (the behaviour the claim ascribes to the cleaning function). -/
def stripAll (pat s : List Char) : List Char :=
  match pat with
  | [] => s
  | p :: ps => stripAllAux p ps s.length s

/-- Number of non-overlapping, left-to-right occurrences of the literal
pattern `p :: ps`, with the same fuel discipline as `stripAllAux`. -/
def countOccAux (p : Char) (ps : List Char) : Nat → List Char → Nat
  | _, [] => 0
  | 0, _ => 0
  | fuel + 1, c :: cs =>
    if (p :: ps).isPrefixOf (c :: cs) then
      1 + countOccAux p ps fuel (cs.drop ps.length)
    else countOccAux p ps fuel cs

/-- Number of non-overlapping occurrences of `pat` in `s`. -/
def countOcc (pat s : List Char) : Nat :=
  match pat with
  | [] => 0
  | p :: ps => countOccAux p ps s.length s

/-- The three shapes of `options.clean` accepted by `getCleanFunction`:
`true` (default), a regular expression, `false`. -/
inductive CleanOpt : Type
  | std : CleanOpt
  | regex (pat : String) : CleanOpt
  | ident : CleanOpt

/-- `getCleanFunction` from the presets module.  `semverClean` is the
external `semver.clean` primitive (`none` models its `null` on invalid
input); the regex branch is `version.replace(options.clean, '')` for a
literal, non-global pattern; the `false` branch is `_.identity`. -/
def getCleanFunction (o : CleanOpt) (semverClean : String → Option String) :
    String → Option String :=
  match o with
  | .std => semverClean
  | .regex pat => fun v => some (String.mk (jsReplaceFirst pat.toList v.toList))
  | .ident => fun v => some v

/-- Modelled from the spec: `clean(patternStrip(regex), version)` as the
claim reads it — every non-overlapping match removed. -/
def specStripAll (pat v : String) : String :=
  String.mk (stripAll pat.toList v.toList)

theorem stripAllAux_of_countOccAux_zero (p : Char) (ps : List Char) :
    ∀ (fuel : Nat) (s : List Char), countOccAux p ps fuel s = 0 →
      stripAllAux p ps fuel s = s := by
  intro fuel
  induction fuel with
  | zero => intro s _; cases s <;> rfl
  | succ n ih =>
    intro s hcount
    cases s with
    | nil => rfl
    | cons c cs =>
      by_cases hpre : (p :: ps).isPrefixOf (c :: cs)
      · rw [countOccAux, if_pos hpre] at hcount; omega
      · rw [countOccAux, if_neg hpre] at hcount
        rw [stripAllAux, if_neg hpre, ih cs hcount]

theorem replaceFirstAux_eq_stripAllAux (p : Char) (ps : List Char) :
    ∀ (fuel : Nat) (s : List Char), s.length ≤ fuel →
      countOccAux p ps fuel s ≤ 1 →
      replaceFirstAux p ps s = stripAllAux p ps fuel s := by
  intro fuel
  induction fuel with
  | zero =>
    intro s hs _
    have : s = [] := List.eq_nil_of_length_eq_zero (Nat.le_zero.mp hs)
    subst this
    rfl
  | succ n ih =>
    intro s hs hcount
    cases s with
    | nil => rfl
    | cons c cs =>
      have hlen : cs.length ≤ n := by
        simp only [List.length_cons] at hs; omega
      by_cases hpre : (p :: ps).isPrefixOf (c :: cs)
      · rw [countOccAux, if_pos hpre] at hcount
        have hz : countOccAux p ps n (cs.drop ps.length) = 0 := by omega
        rw [replaceFirstAux, if_pos hpre, stripAllAux, if_pos hpre,
          stripAllAux_of_countOccAux_zero p ps n (cs.drop ps.length) hz]
      · rw [countOccAux, if_neg hpre] at hcount
        rw [replaceFirstAux, if_neg hpre, stripAllAux, if_neg hpre,
          ih cs hlen hcount]

/-- Claim C2, counterexample: the regex cleaning function replaces only the
first match (JavaScript `replace` with a non-global regex), so on
`"1.2.3-beta-beta"` it yields `"1.2.3-beta"`, not the all-matches-removed
`"1.2.3"` the claim promises. -/
theorem C2_counterexample :
    getCleanFunction (.regex "-beta") (fun _ => none) "1.2.3-beta-beta" =
      some "1.2.3-beta" ∧
    specStripAll "-beta" "1.2.3-beta-beta" = "1.2.3" ∧
    getCleanFunction (.regex "-beta") (fun _ => none) "1.2.3-beta-beta" ≠
      some (specStripAll "-beta" "1.2.3-beta-beta") := by
  refine ⟨rfl, rfl, ?_⟩
  decide

/-- Claim C2 as amended: for a (non-global, literal) regex cleaning policy,
`clean` removes only the first match; it agrees with remove-every-match
exactly on versions containing at most one occurrence, and in particular
`clean` with the "-beta" regex on `"1.2.3-beta"` yields `"1.2.3"`. -/
theorem C2_clean_regex_first_match :
    (∀ (semverClean : String → Option String) (pat v : String),
      countOcc pat.toList v.toList ≤ 1 →
      getCleanFunction (.regex pat) semverClean v =
        some (specStripAll pat v)) ∧
    (∀ semverClean : String → Option String,
      getCleanFunction (.regex "-beta") semverClean "1.2.3-beta" =
        some "1.2.3") := by
  constructor
  · intro semverClean pat v hcount
    show some (String.mk (jsReplaceFirst pat.toList v.toList)) =
      some (String.mk (stripAll pat.toList v.toList))
    cases hp : pat.toList with
    | nil => rfl
    | cons p ps =>
      rw [hp, countOcc] at hcount
      rw [jsReplaceFirst, stripAll,
        replaceFirstAux_eq_stripAllAux p ps v.toList.length v.toList le_rfl
          hcount]
  · intro _; rfl

/-- Concrete instance for C2's amended claim: on `"1.2.3-beta"` (one match)
the cleaning function agrees with remove-every-match and yields `"1.2.3"`. -/
theorem C2_clean_regex_first_match_witness :
    getCleanFunction (.regex "-beta") (fun _ => none) "1.2.3-beta" =
      some (specStripAll "-beta" "1.2.3-beta") :=
  C2_clean_regex_first_match.1 (fun _ => none) "-beta" "1.2.3-beta" (by decide)

/-! ## Changelog entry merging (`addEntryToChangelog.prepend`)

The preset splits the existing contents and the entry on newlines, takes the
lines before/from `options.fromLine`, and `_.reduce`s the three segments
with a combining step that drops trailing blank lines from the accumulator
and leading blank lines from the next segment, joining with one blank line. -/

/-- `_.split(s, '\n')`: split on every newline; a trailing newline yields a
final empty line, and the empty string yields `[""]`. -/
def splitLinesAux : List Char → List Char → List String
  | [], cur => [String.mk cur.reverse]
  | c :: cs, cur =>
    if c = '\n' then String.mk cur.reverse :: splitLinesAux cs []
    else splitLinesAux cs (c :: cur)

/-- `_.split(s, '\n')` on a `String`. -/
def jsSplitNl (s : String) : List String :=
  splitLinesAux s.toList []

/-- `_.join(lines, '\n')`. -/
def jsJoinNl : List String → String
  | [] => ""
  | [l] => l
  | l :: l' :: ls => l ++ "\n" ++ jsJoinNl (l' :: ls)

/-- `_.isEmpty` on a string: true exactly for the empty string (a blank
changelog line). -/
def isEmptyLine (s : String) : Bool :=
  s = ""

/-- `_.dropRightWhile`: drop the longest suffix whose elements satisfy the
predicate. -/
def jsDropRightWhile {α : Type} (p : α → Bool) (l : List α) : List α :=
  (l.reverse.dropWhile p).reverse

/-- One step of the `_.reduce` in `addEntryToChangelog.prepend`: trim
trailing blank lines from the accumulator and leading blank lines from the
next segment; an empty trimmed accumulator yields just the trimmed segment,
otherwise the two are joined with a single blank line. -/
def combineSegments (accumulator arr : List String) : List String :=
  let hd := jsDropRightWhile isEmptyLine accumulator
  let body := arr.dropWhile isEmptyLine
  if hd.isEmpty then body else hd ++ [""] ++ body

/-- The line-level merge of `addEntryToChangelog.prepend`: reduce
`[take fromLine, entry lines, drop fromLine]` with `combineSegments`
starting from the empty accumulator. -/
def mergeLines (contents entry : String) (fromLine : Nat) : List String :=
  [(jsSplitNl contents).take fromLine, jsSplitNl entry,
    (jsSplitNl contents).drop fromLine].foldl combineSegments []

/-- `addEntryToChangelog.prepend`'s new file contents: the merged lines
joined with newlines. -/
def mergeEntry (contents entry : String) (fromLine : Nat) : String :=
  jsJoinNl (mergeLines contents entry fromLine)

/-- Modelled from the spec: trim leading blank lines from a segment. -/
def trimLeadingBlanks : List String → List String
  | [] => []
  | l :: ls => if l = "" then trimLeadingBlanks ls else l :: ls

/-- Modelled from the spec: trim trailing blank lines from a segment. -/
def trimTrailingBlanks : List String → List String
  | [] => []
  | l :: ls =>
    if trimTrailingBlanks ls = [] then (if l = "" then [] else [l])
    else l :: trimTrailingBlanks ls

/-- Modelled from the spec: the claim's pairwise combination rule — trim
trailing blanks of the accumulated result and leading blanks of the next
segment; if the trimmed result is empty take the trimmed segment, else join
them with one blank line. -/
def claimCombine (acc next : List String) : List String :=
  if trimTrailingBlanks acc = [] then trimLeadingBlanks next
  else trimTrailingBlanks acc ++ [""] ++ trimLeadingBlanks next

/-- Modelled from the spec: the claim's reading of the merge — apply the
rule to (head, middle), then to (that result, tail). -/
def claimMergeLines (contents entry : String) (fromLine : Nat) : List String :=
  claimCombine
    (claimCombine ((jsSplitNl contents).take fromLine) (jsSplitNl entry))
    ((jsSplitNl contents).drop fromLine)

/-- The claim's merge as a string. -/
def claimMerge (contents entry : String) (fromLine : Nat) : String :=
  jsJoinNl (claimMergeLines contents entry fromLine)

theorem trimLeadingBlanks_eq (l : List String) :
    trimLeadingBlanks l = l.dropWhile isEmptyLine := by
  induction l with
  | nil => rfl
  | cons a ls ih =>
    rw [trimLeadingBlanks, List.dropWhile_cons]
    by_cases h : a = ""
    · simp only [if_pos h, isEmptyLine, decide_eq_true_eq, h, if_pos]
      exact ih
    · simp only [if_neg h, isEmptyLine]
      rw [if_neg (by simpa using h)]

theorem trimTrailingBlanks_eq (l : List String) :
    trimTrailingBlanks l = jsDropRightWhile isEmptyLine l := by
  induction l with
  | nil => rfl
  | cons a ls ih =>
    rw [trimTrailingBlanks, ih]
    unfold jsDropRightWhile
    rw [List.reverse_cons, List.dropWhile_append]
    by_cases h : (ls.reverse.dropWhile isEmptyLine).isEmpty
    · rw [if_pos h]
      rw [List.isEmpty_iff] at h
      rw [h, List.reverse_nil, if_pos rfl, List.dropWhile_cons]
      by_cases ha : a = ""
      · simp [isEmptyLine, ha]
      · simp [isEmptyLine, ha]
    · rw [if_neg h]
      rw [List.isEmpty_iff] at h
      rw [if_neg (by simpa using h)]
      rw [List.reverse_append, List.reverse_cons, List.reverse_nil,
        List.nil_append, List.singleton_append]

theorem claimCombine_eq (acc next : List String) :
    claimCombine acc next = combineSegments acc next := by
  unfold claimCombine combineSegments
  rw [trimTrailingBlanks_eq, trimLeadingBlanks_eq]
  by_cases h : jsDropRightWhile isEmptyLine acc = []
  · rw [if_pos h, h]
    rfl
  · rw [if_neg h, if_neg (by simpa [List.isEmpty_iff] using h)]

theorem combineSegments_nil_left (arr : List String) :
    combineSegments [] arr = arr.dropWhile isEmptyLine :=
  rfl

theorem dropWhile_isEmptyLine_of_head {l : List String}
    (h : l.head? ≠ some "") : l.dropWhile isEmptyLine = l := by
  cases l with
  | nil => rfl
  | cons a ls =>
    have ha : a ≠ "" := by
      intro hc
      exact h (by rw [hc]; rfl)
    rw [List.dropWhile_cons, if_neg (by simpa [isEmptyLine] using ha)]

/-- Claim C3, counterexample: when the head segment begins with a blank
line, the source's merge (which folds from an empty accumulator, trimming
the head's leading blanks) differs from the claim's pairwise rule applied to
(head, middle) then (result, tail). -/
theorem C3_counterexample :
    mergeEntry "\nX\n" "E" 2 = "X\n\nE\n" ∧
    claimMerge "\nX\n" "E" 2 = "\nX\n\nE\n" ∧
    mergeEntry "\nX\n" "E" 2 ≠ claimMerge "\nX\n" "E" 2 := by
  refine ⟨by decide, by decide, by decide⟩

/-- Claim C3 as amended: the merge combines head, entry lines and tail with
the claimed trimming rule, but the fold starts from an empty accumulator, so
the head's leading blank lines are trimmed as well; whenever the head
segment does not begin with a blank line the claim's pairwise description is
exact, and the claim's concrete example holds. -/
theorem C3_merge_pairwise :
    (∀ (contents entry : String) (fromLine : Nat),
      ((jsSplitNl contents).take fromLine).head? ≠ some "" →
      mergeEntry contents entry fromLine = claimMerge contents entry fromLine) ∧
    mergeEntry "## 1.0.0\n\nfoo\n" "## 1.1.0\n\nbar\n" 0 =
      "## 1.1.0\n\nbar\n\n## 1.0.0\n\nfoo\n" := by
  constructor
  · intro contents entry fromLine hhead
    unfold mergeEntry claimMerge mergeLines claimMergeLines
    rw [List.foldl_cons, List.foldl_cons, List.foldl_cons, List.foldl_nil]
    rw [claimCombine_eq, claimCombine_eq, combineSegments_nil_left,
      dropWhile_isEmptyLine_of_head hhead]
  · decide

/-- Concrete instance for C3's amended claim: with a head segment that does
not begin with a blank line (here the empty head of a prepend at line 0) the
source merge and the claim's pairwise merge agree. -/
theorem C3_merge_pairwise_witness :
    mergeEntry "A" "B" 0 = claimMerge "A" "B" 0 :=
  C3_merge_pairwise.1 "A" "B" 0 (by decide)

/-- Two or more blank lines at the very end of the document. -/
def hasTrailingBlankRun (lines : List String) : Prop :=
  2 ≤ (lines.reverse.takeWhile isEmptyLine).length

instance (lines : List String) : Decidable (hasTrailingBlankRun lines) := by
  unfold hasTrailingBlankRun
  infer_instance

/-- Claim C4, counterexample: trailing blank lines of the final segment are
not trimmed, so merging an entry above contents that end with blank lines
leaves a trailing run of blank lines at the edge of the output document. -/
theorem C4_counterexample :
    mergeEntry "A\n\n\n" "B" 0 = "B\n\nA\n\n\n" ∧
    mergeLines "A\n\n\n" "B" 0 = ["B", "", "A", "", "", ""] ∧
    hasTrailingBlankRun (mergeLines "A\n\n\n" "B" 0) := by
  refine ⟨by decide, by decide, by decide⟩

theorem head_combineSegments {acc : List String} (arr : List String)
    (h : acc.head? ≠ some "") :
    (combineSegments acc arr).head? ≠ some "" := by
  unfold combineSegments
  by_cases he : (jsDropRightWhile isEmptyLine acc).isEmpty
  · rw [if_pos he]
    intro hc
    have hnot := List.head?_dropWhile_not isEmptyLine arr
    rw [hc] at hnot
    simp [isEmptyLine] at hnot
  · rw [if_neg he]
    have hpre : jsDropRightWhile isEmptyLine acc <+: acc := by
      unfold jsDropRightWhile
      have hsuf : acc.reverse.dropWhile isEmptyLine <:+ acc.reverse :=
        List.dropWhile_suffix isEmptyLine
      have := List.reverse_prefix.mpr hsuf
      simpa using this
    obtain ⟨t, ht⟩ := hpre
    cases hcase : jsDropRightWhile isEmptyLine acc with
    | nil => rw [hcase] at he; simp at he
    | cons x xs =>
      rw [hcase] at ht
      rw [← ht] at h
      simpa using h

/-- Claim C4 as amended: the merge never begins its output with a blank
line, and at every boundary it creates it inserts exactly one blank line
flanked by non-blank lines — but trailing blank lines of the final segment
are preserved, so the output's trailing edge is not normalized. -/
theorem C4_boundary_blanks :
    (∀ (contents entry : String) (fromLine : Nat),
      (mergeLines contents entry fromLine).head? ≠ some "") ∧
    (∀ acc arr : List String, jsDropRightWhile isEmptyLine acc ≠ [] →
      combineSegments acc arr =
        jsDropRightWhile isEmptyLine acc ++ [""] ++
          arr.dropWhile isEmptyLine ∧
      (jsDropRightWhile isEmptyLine acc).getLast? ≠ some "" ∧
      (arr.dropWhile isEmptyLine).head? ≠ some "") := by
  constructor
  · intro contents entry fromLine
    unfold mergeLines
    rw [List.foldl_cons, List.foldl_cons, List.foldl_cons, List.foldl_nil]
    apply head_combineSegments
    apply head_combineSegments
    rw [combineSegments_nil_left]
    intro hc
    have hnot := List.head?_dropWhile_not isEmptyLine
      ((jsSplitNl contents).take fromLine)
    rw [hc] at hnot
    simp [isEmptyLine] at hnot
  · intro acc arr h
    refine ⟨?_, ?_, ?_⟩
    · unfold combineSegments
      rw [if_neg (by simpa [List.isEmpty_iff] using h)]
    · unfold jsDropRightWhile
      rw [List.getLast?_reverse]
      intro hc
      have hnot := List.head?_dropWhile_not isEmptyLine acc.reverse
      rw [hc] at hnot
      simp [isEmptyLine] at hnot
    · intro hc
      have hnot := List.head?_dropWhile_not isEmptyLine arr
      rw [hc] at hnot
      simp [isEmptyLine] at hnot

/-- Concrete instance for C4's amended claim: a created boundary consists of
exactly one blank line between the trimmed segments. -/
theorem C4_boundary_blanks_witness :
    combineSegments ["A"] ["B"] =
      jsDropRightWhile isEmptyLine ["A"] ++ [""] ++
        (["B"].dropWhile isEmptyLine) :=
  (C4_boundary_blanks.2 ["A"] ["B"] (by decide)).1

/-! ## Pattern-based version patching (`replace`, `updateVersion.quoted`)

The `replace` helper reads a file, fails when `pattern.test(contents)` is
false, and otherwise writes `contents.replace(pattern, replacement)` — for a
non-global regex this rewrites only the first match.  The `quoted` variant
builds the combined pattern `(<prefix>)("|').*?\2` and the replacement
`$1$2<cleaned version>$2`.  The prefix regex is modelled for prefixes made
of literal characters; `.` in the lazy payload does not match a newline.
Matching is modelled by a scanner that returns the decomposition of the
contents around the first match. -/

/-- JavaScript regex `\s` on the characters relevant here. -/
def isSpaceChar (c : Char) : Bool :=
  c = ' ' ∨ c = '\t' ∨ c = '\n' ∨ c = '\r' ∨ c.toNat = 11 ∨ c.toNat = 12

/-- The quote alternation `("|')`. -/
def isQuoteChar (c : Char) : Bool :=
  c = '"' ∨ c = '\''

/-- The lazy payload-and-backreference `.*?\2`: the shortest (possibly
empty) run of non-newline characters up to the closing quote `q`; `none`
when no closing quote occurs on the line. -/
def lazyClose (q : Char) : List Char → Option (List Char × List Char)
  | [] => none
  | c :: cs =>
    if c = q then some ([], cs)
    else if c = '\n' then none
    else (lazyClose q cs).map (fun pr => (c :: pr.1, pr.2))

/-- The lazy non-empty payload `(.+?)\1`: one non-newline character
followed by the shortest run up to the closing quote. -/
def lazyClose1 (q : Char) : List Char → Option (List Char × List Char)
  | [] => none
  | c :: cs =>
    if c = '\n' then none
    else (lazyClose q cs).map (fun pr => (c :: pr.1, pr.2))

/-- A match of the combined pattern `(<prefix>)("|').*?\2`, as the
decomposition of the contents around it. -/
structure QMatch : Type where
  before : List Char
  quote : Char
  payload : List Char
  after : List Char
deriving DecidableEq

/-- Attempt the combined pattern at the current position: the literal
prefix, a quote, the lazy payload, the backreferenced quote. -/
def matchQuotedAt (pre : List Char) (s : List Char) :
    Option (Char × List Char × List Char) :=
  if pre.isPrefixOf s then
    match s.drop pre.length with
    | [] => none
    | q :: rest =>
      if isQuoteChar q then
        (lazyClose q rest).map (fun pr => (q, pr.1, pr.2))
      else none
  else none

/-- Leftmost match of the combined pattern: try each position left to
right. -/
def findQuoted (pre : List Char) : List Char → Option QMatch
  | [] => none
  | c :: cs =>
    match matchQuotedAt pre (c :: cs) with
    | some (q, p, r) => some ⟨[], q, p, r⟩
    | none =>
      (findQuoted pre cs).map
        (fun m => ⟨c :: m.before, m.quote, m.payload, m.after⟩)

/-- The `replace` helper instantiated at the combined quoted pattern with
replacement `$1$2<ver>$2`: error (no write) when the pattern does not match
the contents, otherwise the contents with the first match's quoted payload
replaced by `ver`.  The file name in the thrown message is abstracted. -/
def replaceQuoted (pre ver contents : List Char) : Except String (List Char) :=
  match findQuoted pre contents with
  | none => .error "Pattern does not match file"
  | some m => .ok (m.before ++ pre ++ m.quote :: (ver ++ m.quote :: m.after))

/-- `updateVersion.quoted` on the target file's contents, for a literal
prefix and already-validated (relative) paths: clean the version, fail with
`Invalid version` when the cleaned result is falsy, then run `replace` with
the combined pattern.  Result: (callback error, file contents after the
operation). -/
def updateQuoted (cleanOpt : CleanOpt) (semverClean : String → Option String)
    (pre version contents : String) : Option String × String :=
  match getCleanFunction cleanOpt semverClean version with
  | none => (some ("Invalid version: " ++ version), contents)
  | some cv =>
    if cv = "" then (some ("Invalid version: " ++ version), contents)
    else
      match replaceQuoted pre.toList cv.toList contents.toList with
      | .error e => (some e, contents)
      | .ok nc => (none, String.mk nc)

/-- Number of successive non-overlapping matches of the combined quoted
pattern, scanning left to right (fuel-bounded by the content length). -/
def countQuotedAux (pre : List Char) : Nat → List Char → Nat
  | 0, _ => 0
  | fuel + 1, s =>
    match findQuoted pre s with
    | none => 0
    | some m => 1 + countQuotedAux pre fuel m.after

/-- Number of non-overlapping matches of the combined quoted pattern. -/
def countQuoted (pre s : List Char) : Nat :=
  countQuotedAux pre s.length s

theorem lazyClose_sound (q : Char) :
    ∀ (s p r : List Char), lazyClose q s = some (p, r) → s = p ++ q :: r := by
  intro s
  induction s with
  | nil => intro p r h; cases h
  | cons c cs ih =>
    intro p r h
    rw [lazyClose] at h
    by_cases hq : c = q
    · rw [if_pos hq] at h
      cases h
      rw [hq]
      rfl
    · rw [if_neg hq] at h
      by_cases hn : c = '\n'
      · rw [if_pos hn] at h; cases h
      · rw [if_neg hn] at h
        cases h' : lazyClose q cs with
        | none => rw [h'] at h; cases h
        | some pr =>
          rw [h'] at h
          cases h
          rw [List.cons_append]
          rw [ih pr.1 pr.2 (by rw [h'])]

theorem matchQuotedAt_sound {pre s : List Char} {q : Char}
    {p r : List Char} (h : matchQuotedAt pre s = some (q, p, r)) :
    s = pre ++ q :: (p ++ q :: r) := by
  rw [matchQuotedAt] at h
  by_cases hpre : pre.isPrefixOf s
  · rw [if_pos hpre] at h
    obtain ⟨t, ht⟩ := List.isPrefixOf_iff_prefix.mp hpre
    have hdrop : s.drop pre.length = t := by
      rw [← ht, List.drop_left]
    rw [hdrop] at h
    cases t with
    | nil => cases h
    | cons q' rest =>
      dsimp only at h
      by_cases hq : isQuoteChar q'
      · rw [if_pos hq] at h
        cases hl : lazyClose q' rest with
        | none => rw [hl] at h; cases h
        | some pr =>
          rw [hl] at h
          cases h
          rw [← ht, lazyClose_sound _ rest pr.1 pr.2 hl]
      · rw [if_neg hq] at h; cases h
  · rw [if_neg hpre] at h; cases h

theorem findQuoted_sound {pre : List Char} :
    ∀ {s : List Char} {m : QMatch}, findQuoted pre s = some m →
      s = m.before ++ pre ++ m.quote :: (m.payload ++ m.quote :: m.after) := by
  intro s
  induction s with
  | nil => intro m h; cases h
  | cons c cs ih =>
    intro m h
    rw [findQuoted] at h
    cases hat : matchQuotedAt pre (c :: cs) with
    | some qpr =>
      obtain ⟨q', p', r'⟩ := qpr
      rw [hat] at h
      cases h
      simpa using matchQuotedAt_sound hat
    | none =>
      rw [hat] at h
      cases hrec : findQuoted pre cs with
      | none => rw [hrec] at h; cases h
      | some m' =>
        rw [hrec] at h
        cases h
        show c :: cs =
          (c :: m'.before) ++ pre ++
            m'.quote :: (m'.payload ++ m'.quote :: m'.after)
        rw [List.cons_append, List.cons_append]
        rw [ih hrec]

/-- Claim C5, counterexample: the `replace` helper only tests that the
pattern matches at least once; with two matches of the combined pattern the
operation succeeds and rewrites the first match, instead of failing with
`PatternNotFound` and leaving the file unchanged as the claim states. -/
theorem C5_counterexample :
    countQuoted "VERSION = ".toList
        "VERSION = \"1.0.0\"\nVERSION = \"2.0.0\"".toList = 2 ∧
    updateQuoted .ident (fun _ => none) "VERSION = " "1.1.0"
        "VERSION = \"1.0.0\"\nVERSION = \"2.0.0\"" =
      (none, "VERSION = \"1.1.0\"\nVERSION = \"2.0.0\"") := by
  refine ⟨by decide, by decide⟩

/-- Claim C5 as amended: when the combined prefix-plus-quoted-literal
pattern matches at least once, only the first match's quoted payload is
replaced with the cleaned version — the quote character and every other
byte are preserved; when the pattern does not match at all the operation
fails with the pattern-not-found error and the file is unchanged.  (With
several matches the first is rewritten; the code never checks
uniqueness.) -/
theorem C5_anchored_replace (cleanOpt : CleanOpt)
    (semverClean : String → Option String) (pre version contents cv : String)
    (hclean : getCleanFunction cleanOpt semverClean version = some cv)
    (hne : cv ≠ "") :
    (findQuoted pre.toList contents.toList = none →
      updateQuoted cleanOpt semverClean pre version contents =
        (some "Pattern does not match file", contents)) ∧
    (∀ m : QMatch, findQuoted pre.toList contents.toList = some m →
      contents.toList =
        m.before ++ pre.toList ++
          m.quote :: (m.payload ++ m.quote :: m.after) ∧
      updateQuoted cleanOpt semverClean pre version contents =
        (none, String.mk (m.before ++ pre.toList ++
          m.quote :: (cv.toList ++ m.quote :: m.after)))) := by
  constructor
  · intro hfind
    unfold updateQuoted
    rw [hclean]
    dsimp only
    rw [if_neg hne]
    unfold replaceQuoted
    rw [hfind]
  · intro m hfind
    refine ⟨findQuoted_sound hfind, ?_⟩
    unfold updateQuoted
    rw [hclean]
    dsimp only
    rw [if_neg hne]
    unfold replaceQuoted
    rw [hfind]

/-- Concrete instance for C5's amended claim: on `VERSION = "1.0.0"` with
prefix `VERSION = ` and version `1.1.0`, only the quoted payload changes. -/
theorem C5_anchored_replace_witness :
    updateQuoted .ident (fun _ => none) "VERSION = " "1.1.0"
        "VERSION = \"1.0.0\"" = (none, "VERSION = \"1.1.0\"") := by
  have h := ((C5_anchored_replace .ident (fun _ => none) "VERSION = " "1.1.0"
    "VERSION = \"1.0.0\"" "1.1.0" rfl (by decide)).2
    ⟨[], '"', "1.0.0".toList, []⟩ (by decide)).2
  rw [h]
  decide

/-! ## Cross-file cargo update (`updateVersion.cargo`)

The cargo variant extracts the crate name from `Cargo.toml` with
`\[package\][^[]+?name\s*=\s*("|')(.+?)\1`, then — if `Cargo.lock` exists —
replaces the first `version = "..."` after `name = "<pkg>"` in the lock
file, and only then replaces the first `version = "..."` after `[package]`
in `Cargo.toml`.  The scanners below model these three regexes; `[^[]+?` is
a lazy non-empty run of non-`[` characters, and the `\s*` runs are maximal
space runs followed by the required character. -/

/-- A match of `<key>\s*=\s*("|')<payload>\1` at the current position:
`consumed` is the matched text before the opening quote. -/
structure KMatch : Type where
  consumed : List Char
  quote : Char
  payload : List Char
  rest : List Char
deriving DecidableEq

/-- Attempt `<key>\s*=\s*("|')…\1` at the current position; `one` selects
the non-empty payload `(.+?)` (name extraction) over `.*?` (version
replacement). -/
def matchKeyEq (key : List Char) (one : Bool) (s : List Char) :
    Option KMatch :=
  if key.isPrefixOf s then
    let t1 := s.drop key.length
    let sp1 := t1.takeWhile isSpaceChar
    let t2 := t1.dropWhile isSpaceChar
    match t2 with
    | '=' :: t3 =>
      let sp2 := t3.takeWhile isSpaceChar
      let t4 := t3.dropWhile isSpaceChar
      match t4 with
      | [] => none
      | q :: t5 =>
        if isQuoteChar q then
          match (if one then lazyClose1 q t5 else lazyClose q t5) with
          | some pr => some ⟨key ++ sp1 ++ '=' :: sp2, q, pr.1, pr.2⟩
          | none => none
        else none
    | _ => none
  else none

/-- The lazy gap `[^[]+?` followed by a key match: consume at least one
non-`[` character, stopping at the earliest position where the key matches;
fail upon reaching `[` or the end. -/
def gapScan (tryKey : List Char → Option KMatch) :
    List Char → Option (List Char × KMatch)
  | [] => none
  | c :: cs =>
    if c = '[' then none
    else
      match tryKey cs with
      | some m => some ([c], m)
      | none => (gapScan tryKey cs).map (fun gm => (c :: gm.1, gm.2))

/-- Leftmost-match scan: try the position-local matcher at each position,
left to right. -/
def scanFirst {α : Type} (tryAt : List Char → Option α) :
    List Char → Option (List Char × α)
  | [] => none
  | c :: cs =>
    match tryAt (c :: cs) with
    | some m => some ([], m)
    | none => (scanFirst tryAt cs).map (fun bm => (c :: bm.1, bm.2))

/-- `\[package\][^[]+?name\s*=\s*("|')(.+?)\1` at the current position. -/
def tryPackageName (s : List Char) : Option (List Char × KMatch) :=
  if "[package]".toList.isPrefixOf s then
    gapScan (matchKeyEq "name".toList true) (s.drop 9)
  else none

/-- First match of the package-name regex in `Cargo.toml`:
(before, gap, key match); the crate name is the key match's payload. -/
def findPackageName (toml : List Char) :
    Option (List Char × List Char × KMatch) :=
  scanFirst tryPackageName toml

/-- The crate name `matches[2]` extracted from the `Cargo.toml` contents. -/
def cargoPkgName (toml : String) : Option (List Char) :=
  (findPackageName toml.toList).map (fun r => r.2.2.payload)

/-- The lock-file anchor `name\s*=\s*(?:"|')<pkg>(?:"|')` at the current
position (the two quotes are independent alternations, as in the source):
(consumed, rest). -/
def matchNamePkg (pkg : List Char) (s : List Char) :
    Option (List Char × List Char) :=
  if "name".toList.isPrefixOf s then
    let t1 := s.drop 4
    let sp1 := t1.takeWhile isSpaceChar
    let t2 := t1.dropWhile isSpaceChar
    match t2 with
    | '=' :: t3 =>
      let sp2 := t3.takeWhile isSpaceChar
      let t4 := t3.dropWhile isSpaceChar
      match t4 with
      | [] => none
      | q1 :: t5 =>
        if isQuoteChar q1 ∧ pkg.isPrefixOf t5 then
          match t5.drop pkg.length with
          | [] => none
          | q2 :: t6 =>
            if isQuoteChar q2 then
              some ("name".toList ++ sp1 ++ '=' :: sp2 ++ q1 :: pkg ++ [q2], t6)
            else none
        else none
    | _ => none
  else none

/-- `name\s*=\s*(?:"|')<pkg>(?:"|')[^[]+?version\s*=\s*("|').*?\2` at the
current position: (anchor consumed, gap, version key match). -/
def tryLockAnchor (pkg : List Char) (s : List Char) :
    Option (List Char × List Char × KMatch) :=
  match matchNamePkg pkg s with
  | none => none
  | some cr =>
    (gapScan (matchKeyEq "version".toList false) cr.2).map
      (fun gm => (cr.1, gm.1, gm.2))

/-- First match of the lock-file version regex:
(before, anchor consumed, gap, version key match). -/
def findLockVersion (pkg lock : List Char) :
    Option (List Char × List Char × List Char × KMatch) :=
  scanFirst (tryLockAnchor pkg) lock

/-- The `replace` helper on `Cargo.lock` with replacement `$1$2<ver>$2`:
rewrite only the first matched version payload. -/
def replaceLockVersion (pkg ver lock : List Char) :
    Except String (List Char) :=
  match findLockVersion pkg lock with
  | none => .error "Pattern does not match file"
  | some r =>
    .ok (r.1 ++ r.2.1 ++ r.2.2.1 ++ r.2.2.2.consumed ++
      r.2.2.2.quote :: (ver ++ r.2.2.2.quote :: r.2.2.2.rest))

/-- `\[package\][^[]+?version\s*=\s*("|').*?\2` at the current position. -/
def tryTomlVersion (s : List Char) : Option (List Char × KMatch) :=
  if "[package]".toList.isPrefixOf s then
    gapScan (matchKeyEq "version".toList false) (s.drop 9)
  else none

/-- First match of the `Cargo.toml` version regex: (before, gap, key
match). -/
def findTomlVersion (toml : List Char) :
    Option (List Char × List Char × KMatch) :=
  scanFirst tryTomlVersion toml

/-- The `replace` helper on `Cargo.toml` with replacement `$1$2<ver>$2`. -/
def replaceTomlVersion (ver toml : List Char) : Except String (List Char) :=
  match findTomlVersion toml with
  | none => .error "Pattern does not match file"
  | some r =>
    .ok (r.1 ++ "[package]".toList ++ r.2.1 ++ r.2.2.consumed ++
      r.2.2.quote :: (ver ++ r.2.2.quote :: r.2.2.rest))

/-- The two files touched by the cargo variant: the `Cargo.toml` contents
and the `Cargo.lock` contents (`none` when the lock file does not exist). -/
structure CargoState : Type where
  toml : String
  lock : Option String
deriving DecidableEq

/-- `updateVersion.cargo`: clean the version (falsy result aborts), extract
the crate name from `Cargo.toml`, update `Cargo.lock` first when it exists,
then update `Cargo.toml`; any failing step aborts the waterfall, and
nothing is rolled back.  Result: (callback error, both files after the
operation). -/
def updateCargo (cleanOpt : CleanOpt) (semverClean : String → Option String)
    (version : String) (st : CargoState) : Option String × CargoState :=
  match getCleanFunction cleanOpt semverClean version with
  | none => (some ("Invalid version: " ++ version), st)
  | some cv =>
    if cv = "" then (some ("Invalid version: " ++ version), st)
    else
      match findPackageName st.toml.toList with
      | none => (some "Package name not found in Cargo.toml", st)
      | some r =>
        match st.lock with
        | some lk =>
          match replaceLockVersion r.2.2.payload cv.toList lk.toList with
          | .error e => (some e, st)
          | .ok newLk =>
            match replaceTomlVersion cv.toList st.toml.toList with
            | .error e => (some e, ⟨st.toml, some (String.mk newLk)⟩)
            | .ok newToml => (none, ⟨String.mk newToml, some (String.mk newLk)⟩)
        | none =>
          match replaceTomlVersion cv.toList st.toml.toList with
          | .error e => (some e, st)
          | .ok newToml => (none, ⟨String.mk newToml, none⟩)

/-- Claim C6: the cargo variant writes the lock file strictly before the
definition file.  If the lock file exists but contains no
`name = "<pkg>"` followed by a `version = "..."` within the section
discipline, the operation fails with the pattern-not-found error and
neither file — in particular the primary `Cargo.toml` — is modified; if the
`Cargo.toml` step fails after the lock write succeeded, the error is
surfaced and the lock write is not rolled back. -/
theorem C6_cargo_secondary_first :
    (∀ (cleanOpt : CleanOpt) (semverClean : String → Option String)
      (version cv toml lk : String) (pkg : List Char),
      getCleanFunction cleanOpt semverClean version = some cv → cv ≠ "" →
      cargoPkgName toml = some pkg →
      findLockVersion pkg lk.toList = none →
      updateCargo cleanOpt semverClean version ⟨toml, some lk⟩ =
        (some "Pattern does not match file", ⟨toml, some lk⟩)) ∧
    (∀ (cleanOpt : CleanOpt) (semverClean : String → Option String)
      (version cv toml lk : String) (pkg newLk : List Char),
      getCleanFunction cleanOpt semverClean version = some cv → cv ≠ "" →
      cargoPkgName toml = some pkg →
      replaceLockVersion pkg cv.toList lk.toList = .ok newLk →
      findTomlVersion toml.toList = none →
      updateCargo cleanOpt semverClean version ⟨toml, some lk⟩ =
        (some "Pattern does not match file",
          ⟨toml, some (String.mk newLk)⟩)) := by
  constructor
  · intro cleanOpt semverClean version cv toml lk pkg hclean hne hpkg hlock
    unfold updateCargo
    rw [hclean]
    dsimp only
    rw [if_neg hne]
    cases hfp : findPackageName toml.toList with
    | none =>
      exfalso
      unfold cargoPkgName at hpkg
      rw [hfp] at hpkg
      cases hpkg
    | some r =>
      have hpay : r.2.2.payload = pkg := by
        unfold cargoPkgName at hpkg
        rw [hfp] at hpkg
        exact Option.some.inj hpkg
      dsimp only
      rw [hpay]
      unfold replaceLockVersion
      rw [hlock]
  · intro cleanOpt semverClean version cv toml lk pkg newLk hclean hne hpkg
      hlockok htoml
    unfold updateCargo
    rw [hclean]
    dsimp only
    rw [if_neg hne]
    cases hfp : findPackageName toml.toList with
    | none =>
      exfalso
      unfold cargoPkgName at hpkg
      rw [hfp] at hpkg
      cases hpkg
    | some r =>
      have hpay : r.2.2.payload = pkg := by
        unfold cargoPkgName at hpkg
        rw [hfp] at hpkg
        exact Option.some.inj hpkg
      dsimp only
      rw [hpay, hlockok]
      unfold replaceTomlVersion
      rw [htoml]

/-- Concrete instance for C6: a lock file that names a different crate
("bar" instead of "foo") makes the lock step fail and leaves both files,
including `Cargo.toml`, untouched. -/
theorem C6_cargo_secondary_first_witness :
    updateCargo .ident (fun _ => none) "1.1.0"
        ⟨"[package]\nname = \"foo\"\nversion = \"0.1.0\"\n",
          some "[[package]]\nname = \"bar\"\nversion = \"0.1.0\"\n"⟩ =
      (some "Pattern does not match file",
        ⟨"[package]\nname = \"foo\"\nversion = \"0.1.0\"\n",
          some "[[package]]\nname = \"bar\"\nversion = \"0.1.0\"\n"⟩) :=
  C6_cargo_secondary_first.1 .ident (fun _ => none) "1.1.0" "1.1.0"
    "[package]\nname = \"foo\"\nversion = \"0.1.0\"\n"
    "[[package]]\nname = \"bar\"\nversion = \"0.1.0\"\n"
    "foo".toList rfl (by decide) (by decide) (by decide)

/-! ## `updateVersion.npm` and `updateVersion.initPy`

The npm variant delegates the JSON field update to the external
`update-json` library, modelled as a parameter invoked on the cleaned
version and the current `package.json` state; the initPy variant delegates
to the external `replace-in-file`, modelled as a parameter returning the new
contents or an error. -/

/-- `updateVersion.npm`: clean the version, abort with `Invalid version`
while the file state is untouched when the cleaned result is falsy, else
hand over to the external `update-json` (the `doUpdate` parameter).
`pkgJson` is the `package.json` contents, `none` when the file is absent. -/
def updateNpm (cleanOpt : CleanOpt) (semverClean : String → Option String)
    (doUpdate : String → Option String → Option String × Option String)
    (pkgJson : Option String) (version : String) :
    Option String × Option String :=
  match getCleanFunction cleanOpt semverClean version with
  | none => (some ("Invalid version: " ++ version), pkgJson)
  | some cv =>
    if cv = "" then (some ("Invalid version: " ++ version), pkgJson)
    else doUpdate cv pkgJson

/-- `updateVersion.initPy`: clean the version, abort with `Invalid version`
when the cleaned result is falsy, else run the external `replace-in-file`
(the `rif` parameter); its completion handler forwards an error to the
callback but — as in the source — performs no call at all on success.
Result: (the sequence of callback invocations, the file contents). -/
def updateInitPy (cleanOpt : CleanOpt) (semverClean : String → Option String)
    (rif : String → Except String String) (version contents : String) :
    List (Option String) × String :=
  match getCleanFunction cleanOpt semverClean version with
  | none => ([some ("Invalid version: " ++ version)], contents)
  | some cv =>
    if cv = "" then ([some ("Invalid version: " ++ version)], contents)
    else
      match rif contents with
      | .error e => ([some e], contents)
      | .ok nc => ([], nc)

/-- A cleaning outcome JavaScript treats as falsy: `null`/`undefined` or
the empty string. -/
def falsyClean (cleanOpt : CleanOpt) (semverClean : String → Option String)
    (version : String) : Prop :=
  getCleanFunction cleanOpt semverClean version = none ∨
    getCleanFunction cleanOpt semverClean version = some ""

/-- Claim C7: in every manifest-update variant, a falsy cleaned version
aborts the operation with an `Invalid version` error before any file is
read or mutated — the file state is returned unchanged and, for npm, the
external JSON updater is never invoked. -/
theorem C7_invalid_version_guard (cleanOpt : CleanOpt)
    (semverClean : String → Option String) (version : String)
    (hfalsy : falsyClean cleanOpt semverClean version) :
    (∀ (doUpdate : String → Option String → Option String × Option String)
      (pkgJson : Option String),
      updateNpm cleanOpt semverClean doUpdate pkgJson version =
        (some ("Invalid version: " ++ version), pkgJson)) ∧
    (∀ st : CargoState,
      updateCargo cleanOpt semverClean version st =
        (some ("Invalid version: " ++ version), st)) ∧
    (∀ (rif : String → Except String String) (contents : String),
      updateInitPy cleanOpt semverClean rif version contents =
        ([some ("Invalid version: " ++ version)], contents)) ∧
    (∀ pre contents : String,
      updateQuoted cleanOpt semverClean pre version contents =
        (some ("Invalid version: " ++ version), contents)) := by
  refine ⟨?_, ?_, ?_, ?_⟩
  · intro doUpdate pkgJson
    unfold updateNpm
    rcases hfalsy with h | h
    · rw [h]
    · rw [h]
      dsimp only
      rw [if_pos rfl]
  · intro st
    unfold updateCargo
    rcases hfalsy with h | h
    · rw [h]
    · rw [h]
      dsimp only
      rw [if_pos rfl]
  · intro rif contents
    unfold updateInitPy
    rcases hfalsy with h | h
    · rw [h]
    · rw [h]
      dsimp only
      rw [if_pos rfl]
  · intro pre contents
    unfold updateQuoted
    rcases hfalsy with h | h
    · rw [h]
    · rw [h]
      dsimp only
      rw [if_pos rfl]

/-- Concrete instance for C7: the identity cleaning policy on the empty
version is falsy, and the npm variant aborts without invoking the JSON
updater. -/
theorem C7_invalid_version_guard_witness :
    updateNpm .ident (fun _ => none)
        (fun _ f => (none, f)) (some "{}") "" =
      (some "Invalid version: ", some "{}") :=
  (C7_invalid_version_guard .ident (fun _ => none) "" (Or.inr rfl)).1
    (fun _ f => (none, f)) (some "{}")

/-- Claim C9: when the initPy replacement completes without error, the
operation invokes its completion callback zero times (the success is never
signalled), while a failing replacement invokes it once with the error. -/
theorem C9_initPy_no_success_callback :
    (∀ (cleanOpt : CleanOpt) (semverClean : String → Option String)
      (rif : String → Except String String) (version contents cv nc : String),
      getCleanFunction cleanOpt semverClean version = some cv → cv ≠ "" →
      rif contents = .ok nc →
      updateInitPy cleanOpt semverClean rif version contents = ([], nc)) ∧
    (∀ (cleanOpt : CleanOpt) (semverClean : String → Option String)
      (rif : String → Except String String) (version contents cv e : String),
      getCleanFunction cleanOpt semverClean version = some cv → cv ≠ "" →
      rif contents = .error e →
      updateInitPy cleanOpt semverClean rif version contents =
        ([some e], contents)) := by
  constructor
  · intro cleanOpt semverClean rif version contents cv nc hclean hne hok
    unfold updateInitPy
    rw [hclean]
    dsimp only
    rw [if_neg hne, hok]
  · intro cleanOpt semverClean rif version contents cv e hclean hne herr
    unfold updateInitPy
    rw [hclean]
    dsimp only
    rw [if_neg hne, herr]

/-- Concrete instance for C9: a successful replacement yields an empty
sequence of callback invocations — the caller is never notified. -/
theorem C9_initPy_no_success_callback_witness :
    updateInitPy .ident (fun _ => none)
        (fun _ => .ok "__version__ = \"1.1.0\"") "1.1.0"
        "__version__ = \"1.0.0\"" =
      ([], "__version__ = \"1.1.0\"") :=
  C9_initPy_no_success_callback.1 .ident (fun _ => none)
    (fun _ => .ok "__version__ = \"1.1.0\"") "1.1.0"
    "__version__ = \"1.0.0\"" "1.1.0" "__version__ = \"1.1.0\"" rfl
    (by decide) rfl

/-! ## Extended semver comparison (`compareExtendedSemver`,
`getGreaterVersion`, `leq` in `lib/semver.js`)

`compareExtendedSemver` calls the external `semver.compare` and, on a tie,
`a.localeCompare(b)`.  The external `semver.compare` is modelled from the
spec: standard semver precedence on `MAJOR.MINOR.PATCH[-pre][+build]`
(numeric triple lexicographically; a version without prerelease outranks one
with it; prerelease identifier lists compare element-wise with numeric
identifiers below alphanumeric ones and a shorter prefix below a longer
list; build metadata is ignored).  `localeCompare` is modelled as
code-point-lexicographic comparison of the two strings. -/

/-- A prerelease identifier: numeric, or alphanumeric as its characters.
Modelled from the spec (standard semver precedence). -/
inductive Ident : Type
  | num (n : Nat) : Ident
  | alpha (s : List Char) : Ident
deriving DecidableEq

/-- A parsed semantic version; build metadata does not participate in
precedence and is not recorded.  Modelled from the spec (standard
semver). -/
structure SemVer : Type where
  major : Nat
  minor : Nat
  patch : Nat
  pre : List Ident
deriving DecidableEq

/-- Comparison of naturals as a three-way `Ordering`. -/
def cmpNat (a b : Nat) : Ordering :=
  compare a b

/-- Character comparison by code point. -/
def cmpChar (a b : Char) : Ordering :=
  cmpNat a.toNat b.toNat

/-- Lexicographic comparison of lists (a strict prefix is smaller). -/
def cmpList {α : Type} (cmp : α → α → Ordering) : List α → List α → Ordering
  | [], [] => .eq
  | [], _ :: _ => .lt
  | _ :: _, [] => .gt
  | a :: as, b :: bs => (cmp a b).then (cmpList cmp as bs)

/-- Semver identifier precedence: numeric before alphanumeric, numerics
numerically, alphanumerics in ASCII order. -/
def cmpIdent : Ident → Ident → Ordering
  | .num m, .num n => cmpNat m n
  | .num _, .alpha _ => .lt
  | .alpha _, .num _ => .gt
  | .alpha s, .alpha t => cmpList cmpChar s t

/-- Prerelease list precedence: the empty list (a release) outranks every
non-empty prerelease; two prereleases compare lexicographically. -/
def cmpPre : List Ident → List Ident → Ordering
  | [], [] => .eq
  | [], _ :: _ => .gt
  | _ :: _, [] => .lt
  | a :: as, b :: bs => cmpList cmpIdent (a :: as) (b :: bs)

/-- Lexicographic combination of two comparators on a pair. -/
def prodCmp {α β : Type} (ca : α → α → Ordering) (cb : β → β → Ordering)
    (x y : α × β) : Ordering :=
  (ca x.1 y.1).then (cb x.2 y.2)

/-- Lift a comparator to `Option`, with `none` below every `some`. -/
def optCmp {α : Type} (c : α → α → Ordering) :
    Option α → Option α → Ordering
  | some x, some y => c x y
  | some _, none => .gt
  | none, some _ => .lt
  | none, none => .eq

/-- The ordered tuple of precedence-relevant fields. -/
def svKey (u : SemVer) : Nat × Nat × Nat × List Ident :=
  (u.major, u.minor, u.patch, u.pre)

/-- Modelled from the spec: the external `semver.compare` — standard semver
precedence as the lexicographic comparison of the field tuples. -/
def semverCmp (u v : SemVer) : Ordering :=
  prodCmp cmpNat (prodCmp cmpNat (prodCmp cmpNat cmpPre)) (svKey u) (svKey v)

/-- A three-way comparator that is a linear order: `eq` means equality, it
is antisymmetric under `swap`, and `lt` is transitive. -/
structure IsLinearCmp {α : Type} (cmp : α → α → Ordering) : Prop where
  eq_iff : ∀ a b, cmp a b = .eq ↔ a = b
  swap_eq : ∀ a b, (cmp a b).swap = cmp b a
  lt_trans : ∀ a b c, cmp a b = .lt → cmp b c = .lt → cmp a c = .lt

theorem then_eq_eq_iff (o₁ o₂ : Ordering) :
    o₁.then o₂ = .eq ↔ o₁ = .eq ∧ o₂ = .eq := by
  cases o₁ <;> cases o₂ <;> decide

theorem then_swap (o₁ o₂ : Ordering) :
    (o₁.then o₂).swap = o₁.swap.then o₂.swap := by
  cases o₁ <;> cases o₂ <;> rfl

theorem then_trans_of {o₁ o₂ o₃ q₁ q₂ q₃ : Ordering}
    (h1 : o₁.then q₁ = .lt) (h2 : o₂.then q₂ = .lt)
    (htrans : o₁ = .lt → o₂ = .lt → o₃ = .lt)
    (heq1 : o₁ = .eq → o₃ = o₂) (heq2 : o₂ = .eq → o₃ = o₁)
    (hq : q₁ = .lt → q₂ = .lt → q₃ = .lt) :
    o₃.then q₃ = .lt := by
  cases o₁ with
  | lt =>
    cases o₂ with
    | lt => rw [htrans rfl rfl]; rfl
    | eq => rw [heq2 rfl]; rfl
    | gt => cases h2
  | eq =>
    cases o₂ with
    | lt => rw [heq1 rfl]; rfl
    | eq =>
      rw [heq1 rfl]
      have hq1 : q₁ = .lt := h1
      have hq2 : q₂ = .lt := h2
      rw [hq hq1 hq2]
      rfl
    | gt => cases h2
  | gt => cases h1

theorem isLinearCmp_cmpNat : IsLinearCmp cmpNat := by
  refine ⟨fun a b => Nat.compare_eq_eq, fun a b => Nat.compare_swap a b, ?_⟩
  intro a b c h1 h2
  rw [cmpNat, Nat.compare_eq_lt] at h1 h2 ⊢
  omega

theorem isLinearCmp_cmpChar : IsLinearCmp cmpChar := by
  refine ⟨?_, fun a b => Nat.compare_swap _ _, ?_⟩
  · intro a b
    rw [cmpChar, cmpNat, Nat.compare_eq_eq]
    constructor
    · intro h
      exact Char.ext (UInt32.ext h)
    · intro h
      rw [h]
  · intro a b c h1 h2
    rw [cmpChar, cmpNat, Nat.compare_eq_lt] at h1 h2 ⊢
    omega

theorem isLinearCmp_prodCmp {α β : Type} {ca : α → α → Ordering}
    {cb : β → β → Ordering} (ha : IsLinearCmp ca) (hb : IsLinearCmp cb) :
    IsLinearCmp (prodCmp ca cb) := by
  refine ⟨?_, ?_, ?_⟩
  · intro x y
    rw [prodCmp, then_eq_eq_iff, ha.eq_iff, hb.eq_iff, Prod.ext_iff]
  · intro x y
    rw [prodCmp, prodCmp, then_swap, ha.swap_eq, hb.swap_eq]
  · intro x y z h1 h2
    rw [prodCmp] at h1 h2 ⊢
    refine then_trans_of h1 h2 (ha.lt_trans _ _ _) ?_ ?_
      (hb.lt_trans _ _ _)
    · intro he
      rw [(ha.eq_iff _ _).mp he]
    · intro he
      rw [← (ha.eq_iff _ _).mp he]

theorem isLinearCmp_cmpList {α : Type} {c : α → α → Ordering}
    (hc : IsLinearCmp c) : IsLinearCmp (cmpList c) := by
  refine ⟨?_, ?_, ?_⟩
  · intro a
    induction a with
    | nil => intro b; cases b <;> simp [cmpList]
    | cons x xs ih =>
      intro b
      cases b with
      | nil => simp [cmpList]
      | cons y ys =>
        rw [cmpList, then_eq_eq_iff, hc.eq_iff, ih ys, List.cons.injEq]
  · intro a
    induction a with
    | nil => intro b; cases b <;> rfl
    | cons x xs ih =>
      intro b
      cases b with
      | nil => rfl
      | cons y ys =>
        rw [cmpList, cmpList, then_swap, hc.swap_eq, ih ys]
  · intro a
    induction a with
    | nil =>
      intro b c h1 h2
      cases b with
      | nil => cases h1
      | cons y ys =>
        cases c with
        | nil => cases h2
        | cons z zs => rfl
    | cons x xs ih =>
      intro b c h1 h2
      cases b with
      | nil => cases h1
      | cons y ys =>
        cases c with
        | nil => cases h2
        | cons z zs =>
          rw [cmpList] at h1 h2 ⊢
          refine then_trans_of h1 h2 (hc.lt_trans _ _ _) ?_ ?_ (ih ys zs)
          · intro he
            rw [(hc.eq_iff _ _).mp he]
          · intro he
            rw [← (hc.eq_iff _ _).mp he]

theorem isLinearCmp_cmpIdent : IsLinearCmp cmpIdent := by
  have hl := isLinearCmp_cmpList isLinearCmp_cmpChar
  refine ⟨?_, ?_, ?_⟩
  · intro a b
    cases a <;> cases b <;>
      simp [cmpIdent, isLinearCmp_cmpNat.eq_iff, hl.eq_iff]
  · intro a b
    cases a <;> cases b <;>
      simp [cmpIdent, isLinearCmp_cmpNat.swap_eq, hl.swap_eq] <;> rfl
  · intro a b c h1 h2
    cases a <;> cases b <;> cases c <;>
      simp_all [cmpIdent]
    · exact isLinearCmp_cmpNat.lt_trans _ _ _ h1 h2
    · exact hl.lt_trans _ _ _ h1 h2

theorem isLinearCmp_cmpPre : IsLinearCmp cmpPre := by
  have hl := isLinearCmp_cmpList isLinearCmp_cmpIdent
  refine ⟨?_, ?_, ?_⟩
  · intro a b
    cases a with
    | nil => cases b <;> simp [cmpPre]
    | cons x xs =>
      cases b with
      | nil => simp [cmpPre]
      | cons y ys => rw [cmpPre, hl.eq_iff]
  · intro a b
    cases a with
    | nil => cases b <;> rfl
    | cons x xs =>
      cases b with
      | nil => rfl
      | cons y ys => rw [cmpPre, cmpPre, hl.swap_eq]
  · intro a b c h1 h2
    cases a with
    | nil =>
      cases b with
      | nil => cases h1
      | cons y ys => cases h1
    | cons x xs =>
      cases b with
      | nil =>
        cases c with
        | nil => cases h2
        | cons z zs => cases h2
      | cons y ys =>
        cases c with
        | nil => rfl
        | cons z zs =>
          rw [cmpPre] at h1 h2 ⊢
          exact hl.lt_trans _ _ _ h1 h2

theorem isLinearCmp_semverCmp : IsLinearCmp semverCmp := by
  have ht := isLinearCmp_prodCmp isLinearCmp_cmpNat
    (isLinearCmp_prodCmp isLinearCmp_cmpNat
      (isLinearCmp_prodCmp isLinearCmp_cmpNat isLinearCmp_cmpPre))
  refine ⟨?_, ?_, ?_⟩
  · intro u v
    rw [semverCmp, ht.eq_iff]
    constructor
    · intro h
      cases u
      cases v
      simpa [svKey, Prod.ext_iff] using h
    · intro h
      rw [h]
  · intro u v
    rw [semverCmp, semverCmp, ht.swap_eq]
  · intro u v w
    exact ht.lt_trans _ _ _

theorem isLinearCmp_optCmp {α : Type} {c : α → α → Ordering}
    (hc : IsLinearCmp c) : IsLinearCmp (optCmp c) := by
  refine ⟨?_, ?_, ?_⟩
  · intro a b
    cases a <;> cases b <;> simp [optCmp, hc.eq_iff]
  · intro a b
    cases a <;> cases b <;> simp [optCmp, hc.swap_eq] <;> rfl
  · intro a b c h1 h2
    cases a <;> cases b <;> cases c <;> simp_all [optCmp]
    exact hc.lt_trans _ _ _ h1 h2

/-- Numeric value of a run of decimal digits. -/
def digitsToNat (l : List Char) : Nat :=
  l.foldl (fun acc c => 10 * acc + (c.toNat - 48)) 0

/-- Modelled from the spec: parse a strict numeric semver component (a
non-empty digit run without leading zeros), returning the value and the
remaining characters. -/
def parseNumStrict (s : List Char) : Option (Nat × List Char) :=
  let digits := s.takeWhile Char.isDigit
  if digits.isEmpty then none
  else if 1 < digits.length ∧ digits.head? = some '0' then none
  else some (digitsToNat digits, s.dropWhile Char.isDigit)

/-- Characters allowed in prerelease/build identifiers. -/
def isIdentChar (c : Char) : Bool :=
  c.isAlphanum || c = '-'

/-- Split a character list on every `'.'`. -/
def splitOnDotChar : List Char → List (List Char)
  | [] => [[]]
  | c :: cs =>
    if c = '.' then [] :: splitOnDotChar cs
    else
      match splitOnDotChar cs with
      | [] => [[c]]
      | seg :: segs => (c :: seg) :: segs

/-- Modelled from the spec: one prerelease identifier — non-empty,
alphanumeric-or-hyphen; all-digit identifiers are numeric and must not have
leading zeros. -/
def parseIdentSeg (seg : List Char) : Option Ident :=
  if seg.isEmpty then none
  else if ¬ seg.all isIdentChar then none
  else if seg.all Char.isDigit then
    if 1 < seg.length ∧ seg.head? = some '0' then none
    else some (.num (digitsToNat seg))
  else some (.alpha seg)

/-- Parse every dot-separated prerelease identifier. -/
def parseIdents : List (List Char) → Option (List Ident)
  | [] => some []
  | seg :: segs =>
    match parseIdentSeg seg, parseIdents segs with
    | some i, some is => some (i :: is)
    | _, _ => none

/-- Build metadata validity: non-empty alphanumeric-or-hyphen dot-separated
segments (leading zeros allowed). -/
def validBuild (b : List Char) : Bool :=
  (splitOnDotChar b).all (fun seg => !seg.isEmpty && seg.all isIdentChar)

/-- Modelled from the spec: strict parsing of
`MAJOR.MINOR.PATCH[-prerelease][+build]`; `none` models the external
library throwing on an invalid version. -/
def parseSemVer (s : String) : Option SemVer :=
  match parseNumStrict s.toList with
  | none => none
  | some (maj, r1) =>
    match r1 with
    | '.' :: r2 =>
      match parseNumStrict r2 with
      | none => none
      | some (mi, r3) =>
        match r3 with
        | '.' :: r4 =>
          match parseNumStrict r4 with
          | none => none
          | some (pa, r5) =>
            match r5 with
            | [] => some ⟨maj, mi, pa, []⟩
            | '+' :: b => if validBuild b then some ⟨maj, mi, pa, []⟩ else none
            | '-' :: rest =>
              match parseIdents
                  (splitOnDotChar (rest.takeWhile (fun c => c ≠ '+'))) with
              | none => none
              | some pre =>
                match rest.dropWhile (fun c => c ≠ '+') with
                | [] => some ⟨maj, mi, pa, pre⟩
                | '+' :: b =>
                  if validBuild b then some ⟨maj, mi, pa, pre⟩ else none
                | _ => none
            | _ => none
        | _ => none
    | _ => none

/-- `compareExtendedSemver` from `lib/semver.js`: the external
`semver.compare` (spec-modelled `semverCmp` on the parses), then — exactly
on a tie — `a.localeCompare(b)`, modelled as code-point-lexicographic
comparison.  The real library throws on an unparsable version; the model
totalizes instead by ranking unparsable strings below parsable ones
(`optCmp`), so the comparator remains a linear order; the theorems below
only use it on parsable versions, where it coincides with the source. -/
def compareExtendedSemver (a b : String) : Ordering :=
  (optCmp semverCmp (parseSemVer a) (parseSemVer b)).then
    (cmpList cmpChar a.toList b.toList)

/-- The non-strict extended order: `compareExtendedSemver a b ≤ 0`. -/
def extLe (a b : String) : Prop :=
  compareExtendedSemver a b ≠ .gt

instance : DecidableRel extLe := fun a b =>
  inferInstanceAs (Decidable (compareExtendedSemver a b ≠ .gt))

/-- `exports.leq` from `lib/semver.js`: `compareExtendedSemver(a, b) <= 0`. -/
def leq (a b : String) : Bool :=
  match compareExtendedSemver a b with
  | .gt => false
  | _ => true

theorem string_toList_inj {a b : String} (h : a.toList = b.toList) :
    a = b := by
  cases a
  cases b
  simp only [String.toList] at h
  rw [h]

theorem isLinearCmp_extCmp : IsLinearCmp compareExtendedSemver := by
  have hp := isLinearCmp_prodCmp (isLinearCmp_optCmp isLinearCmp_semverCmp)
    (isLinearCmp_cmpList isLinearCmp_cmpChar)
  have hrw : ∀ a b : String, compareExtendedSemver a b =
      prodCmp (optCmp semverCmp) (cmpList cmpChar)
        (parseSemVer a, a.toList) (parseSemVer b, b.toList) :=
    fun a b => rfl
  refine ⟨?_, ?_, ?_⟩
  · intro a b
    rw [hrw, hp.eq_iff, Prod.ext_iff]
    constructor
    · intro h
      exact string_toList_inj h.2
    · intro h
      rw [h]
      exact ⟨rfl, rfl⟩
  · intro a b
    rw [hrw, hrw, hp.swap_eq]
  · intro a b c h1 h2
    rw [hrw] at h1 h2 ⊢
    exact hp.lt_trans _ _ _ h1 h2

theorem extLe_refl (a : String) : extLe a a := by
  unfold extLe
  rw [(isLinearCmp_extCmp.eq_iff a a).mpr rfl]
  decide

instance : IsTotal String extLe := by
  constructor
  intro a b
  cases h : compareExtendedSemver a b with
  | lt => exact Or.inl (by unfold extLe; rw [h]; decide)
  | eq => exact Or.inl (by unfold extLe; rw [h]; decide)
  | gt =>
    refine Or.inr ?_
    unfold extLe
    rw [← isLinearCmp_extCmp.swap_eq, h]
    decide

instance : IsTrans String extLe := by
  constructor
  intro a b c h1 h2
  unfold extLe at h1 h2 ⊢
  cases hab : compareExtendedSemver a b with
  | gt => exact absurd hab h1
  | eq =>
    rw [(isLinearCmp_extCmp.eq_iff a b).mp hab]
    exact h2
  | lt =>
    cases hbc : compareExtendedSemver b c with
    | gt => exact absurd hbc h2
    | eq =>
      rw [← (isLinearCmp_extCmp.eq_iff b c).mp hbc]
      rw [hab]
      decide
    | lt =>
      rw [isLinearCmp_extCmp.lt_trans a b c hab hbc]
      decide

/-- JavaScript `_.trim`: strip surrounding whitespace. -/
def jsTrim (s : String) : String :=
  String.mk (((s.toList.dropWhile isSpaceChar).reverse.dropWhile
    isSpaceChar).reverse)

/-- `versions.sort(compareExtendedSemver)`: the in-place sort's final array
contents.  Because the comparator is a linear order (antisymmetric via the
lexical tie-break), the sorted arrangement is unique, so any comparison
sort models `Array.prototype.sort`; insertion sort is used. -/
def jsSortExtended (versions : List String) : List String :=
  List.insertionSort extLe versions

/-- `exports.getGreaterVersion` from `lib/semver.js`:
`_.trim(_.last(versions.sort(compareExtendedSemver)))`.  The result pair is
(the caller's array after the in-place sort, the returned version);
`_.last([])` is `undefined` and `_.trim(undefined)` is `""`. -/
def getGreaterVersionRun (versions : List String) : List String × String :=
  (jsSortExtended versions,
    jsTrim (((jsSortExtended versions).getLast?).getD ""))

/-- The value returned by `getGreaterVersion`. -/
def getGreaterVersion (versions : List String) : String :=
  (getGreaterVersionRun versions).2

/-- A version string on which the model coincides with the source: the
external library parses it, and it carries no surrounding whitespace. -/
def ValidVersion (v : String) : Prop :=
  (parseSemVer v).isSome ∧ jsTrim v = v

instance (v : String) : Decidable (ValidVersion v) := by
  unfold ValidVersion
  infer_instance

theorem leq_eq_true_iff (a b : String) : leq a b = true ↔ extLe a b := by
  unfold leq extLe
  cases h : compareExtendedSemver a b <;> simp

theorem sorted_le_getLast :
    ∀ l : List String, List.Sorted extLe l →
      ∀ x ∈ l, extLe x ((l.getLast?).getD "") := by
  intro l
  induction l with
  | nil => intro _ x hx; cases hx
  | cons a t ih =>
    intro hs x hx
    cases t with
    | nil =>
      rcases List.mem_singleton.mp hx with rfl
      exact extLe_refl x
    | cons b t' =>
      rw [List.getLast?_cons_cons]
      rcases List.mem_cons.mp hx with rfl | hx'
      · have hlast : ((b :: t').getLast?.getD "") ∈ b :: t' := by
          rw [List.getLast?_eq_getLast (b :: t') (by simp)]
          exact List.getLast_mem _
        exact (List.sorted_cons.mp hs).1 _ hlast
      · exact ih (List.sorted_cons.mp hs).2 x hx'

/-- Claim C8: `compareExtendedSemver` orders two parsable versions by
standard semver precedence with a lexical tie-break on the full strings,
`leq` is exactly the non-strict form of that order, and on a non-empty list
of valid versions `getGreaterVersion` returns the maximum element under the
extended order. -/
theorem C8_greater_version_max :
    (∀ (a b : String) (va vb : SemVer),
      parseSemVer a = some va → parseSemVer b = some vb →
      compareExtendedSemver a b =
        (semverCmp va vb).then (cmpList cmpChar a.toList b.toList)) ∧
    (∀ a b : String, leq a b = true ↔ extLe a b) ∧
    (∀ versions : List String, versions ≠ [] →
      (∀ v ∈ versions, ValidVersion v) →
      getGreaterVersion versions ∈ versions ∧
      ∀ v ∈ versions, leq v (getGreaterVersion versions) = true) := by
  refine ⟨?_, leq_eq_true_iff, ?_⟩
  · intro a b va vb ha hb
    unfold compareExtendedSemver
    rw [ha, hb]
    rfl
  · intro versions hne hvalid
    have hperm : (jsSortExtended versions).Perm versions :=
      List.perm_insertionSort extLe versions
    have hsorted : List.Sorted extLe (jsSortExtended versions) :=
      List.sorted_insertionSort extLe versions
    have hLne : jsSortExtended versions ≠ [] := by
      intro hc
      rw [hc] at hperm
      exact hne hperm.symm.eq_nil
    have hlastmem : ((jsSortExtended versions).getLast?.getD "") ∈
        jsSortExtended versions := by
      rw [List.getLast?_eq_getLast _ hLne]
      exact List.getLast_mem _
    have hlastmem' := hperm.mem_iff.mp hlastmem
    have hvalidlast := hvalid _ hlastmem'
    have hres : getGreaterVersion versions =
        ((jsSortExtended versions).getLast?.getD "") := by
      unfold getGreaterVersion getGreaterVersionRun
      exact hvalidlast.2
    constructor
    · rw [hres]
      exact hlastmem'
    · intro v hv
      rw [hres, leq_eq_true_iff]
      exact sorted_le_getLast _ hsorted v (hperm.mem_iff.mpr hv)

/-- Concrete instance for C8: the greater of `2.1.0` and `2.1.1` is
`2.1.1`, an element of the list and an upper bound under `leq`. -/
theorem C8_greater_version_max_witness :
    getGreaterVersion ["2.1.0", "2.1.1"] ∈ (["2.1.0", "2.1.1"] : List String) ∧
    leq "2.1.0" (getGreaterVersion ["2.1.0", "2.1.1"]) = true := by
  have h := (C8_greater_version_max.2.2 ["2.1.0", "2.1.1"]
    (by decide) (by decide))
  exact ⟨h.1, h.2 "2.1.0" (by decide)⟩

/-- Claim C10: `getGreaterVersion` sorts the caller's array in place — the
array observed after the call is the ascending reordering of the input
under the extended order (and on an unsorted input it differs from the
input) — and the returned greatest element is additionally stripped of
surrounding whitespace. -/
theorem C10_sort_in_place :
    (∀ versions : List String,
      (getGreaterVersionRun versions).1 = jsSortExtended versions ∧
      List.Sorted extLe (getGreaterVersionRun versions).1 ∧
      ((getGreaterVersionRun versions).1).Perm versions ∧
      (getGreaterVersionRun versions).2 =
        jsTrim ((getGreaterVersionRun versions).1.getLast?.getD "")) ∧
    (getGreaterVersionRun ["1.0.1", "1.0.0"]).1 = ["1.0.0", "1.0.1"] ∧
    (["1.0.0", "1.0.1"] : List String) ≠ ["1.0.1", "1.0.0"] ∧
    getGreaterVersion [" 1.0.1 "] = "1.0.1" := by
  refine ⟨?_, by decide, by decide, by decide⟩
  intro versions
  exact ⟨rfl, List.sorted_insertionSort extLe versions,
    List.perm_insertionSort extLe versions, rfl⟩

end Versionist
